import Mathlib

/-!
# Verification of the carry_sound UDP audio receiver/sender buffering core

Shallow embedding of `src/receiver.py` (class `AudioReceiver`: the ingest loop
`receive_audio`, the playback callback `audio_callback`, the bounded deque
`audio_buffer`, the carry-over slot `partial_chunk`, and the session counters)
and of the serialization step of `src/sender.py` (`AudioSender.audio_callback`).

Modelling choices:
* A frame (one row of a numpy `(frame_count, channels)` array) is an opaque
  value of a type `α`; the playback callback only ever slices along axis 0, so
  it never inspects the inside of a frame.
* A 32-bit float sample is modelled by its bit pattern, a `Nat < 2^32`; the
  sender's `astype(np.float32).tobytes()` and the receiver's
  `np.frombuffer(..., dtype=np.float32)` are bit-for-bit inverse
  reinterpretations (little-endian, 4 bytes per sample), so round-tripping is
  a statement about bit patterns, not float arithmetic.
* numpy calls that raise `ValueError` (`frombuffer` on a byte length that is
  not a multiple of the item size, `reshape(-1, c)` on a size not divisible by
  `c`) are modelled as `Option.none`; the surrounding Python `except` blocks
  turn them into "drop the datagram / zero the output buffer".
-/

namespace CarrySound

/-- The mutable state of `AudioReceiver` that the ingest loop and the playback
callback read and write.  `audio_buffer` is the bounded deque of decoded frame
blocks (front = oldest); `carry_over` models the field `self.partial_chunk`
(the tail of a block not yet copied to the device).  `α` is the type of one
frame. -/
structure RecvState (α : Type) where
  channels : Nat
  buffer_size : Nat
  audio_buffer : List (List α)
  carry_over : Option (List α)
  bytes_received : Nat
  chunks_received : Nat
  underruns : Nat
deriving DecidableEq

/-- Step 2 of the callback (receiver.py lines 109-118): consume the carry-over
block first.  Returns (frames copied to the output, new value of
`frames_written`, new carry-over).  Mirrors:
`if self.partial_chunk is not None and len(self.partial_chunk) > 0:` then copy
`min(len(partial), frames - 0)` frames and either keep the remainder or clear
the slot. -/
def take_carry (frames : Nat) (pc : Option (List α)) :
    List α × Nat × Option (List α) :=
  match pc with
  | some p =>
    if 0 < p.length then
      (p.take (min p.length frames), min p.length frames,
        if min p.length frames < p.length then some (p.drop (min p.length frames))
        else none)
    else ([], 0, some p)
  | none => ([], 0, none)

/-- Step 3 of the callback (receiver.py lines 121-129): the
`while frames_written < frames and self.audio_buffer:` loop.  Arguments:
request size `frames`, current `frames_written`, remaining queue, current
carry-over.  Returns (frames copied to the output in this loop, final
`frames_written`, remaining queue, final carry-over).  Each iteration pops the
front block, copies `min(len(chunk), frames - frames_written)` frames, and if
the block was not fully consumed stores the remainder in the carry-over slot
(after which `frames_written = frames`, so the loop exits). -/
def fill_from_buffer (frames : Nat) :
    Nat → List (List α) → Option (List α) →
    List α × Nat × List (List α) × Option (List α)
  | fw, [], pc => ([], fw, [], pc)
  | fw, chunk :: rest, pc =>
    if fw < frames then
      match fill_from_buffer frames (fw + min chunk.length (frames - fw)) rest
          (if min chunk.length (frames - fw) < chunk.length
           then some (chunk.drop (min chunk.length (frames - fw))) else pc) with
      | (out, fw', q', pc') =>
        (chunk.take (min chunk.length (frames - fw)) ++ out, fw', q', pc')
    else ([], fw, chunk :: rest, pc)

/-- `AudioReceiver.audio_callback` (receiver.py lines 93-139), normal (fault
free) path: consume the carry-over, then drain the queue, then zero-fill any
remaining frames, incrementing the under-run counter only when
`frames_written == 0`.  `zero` is the silence frame (a row of 0.0 samples).
Returns the state after the invocation and the contents of `outdata` as seen
by the device. -/
def audio_callback (zero : α) (s : RecvState α) (frames : Nat) :
    RecvState α × List α :=
  match take_carry frames s.carry_over with
  | (out0, fw0, pc0) =>
    match fill_from_buffer frames fw0 s.audio_buffer pc0 with
    | (out1, fw1, q1, pc1) =>
      if fw1 < frames then
        ({ s with audio_buffer := q1, carry_over := pc1,
                  underruns := s.underruns + (if fw1 = 0 then 1 else 0) },
          out0 ++ out1 ++ List.replicate (frames - fw1) zero)
      else
        ({ s with audio_buffer := q1, carry_over := pc1 }, out0 ++ out1)

/-- A sequence of callback invocations with the given frame requests, in
order; collects the successive output buffers. -/
def run_callbacks (zero : α) : RecvState α → List Nat → RecvState α × List (List α)
  | s, [] => (s, [])
  | s, f :: fs =>
    match audio_callback zero s f with
    | (s1, out) =>
      match run_callbacks zero s1 fs with
      | (s2, outs) => (s2, out :: outs)

/-- `collections.deque(maxlen := m).append b`: append on the right; when the
length would exceed `maxlen`, elements are discarded from the left.  (With
`maxlen = 0` the deque always stays empty.)  Models
`self.audio_buffer.append(audio_data)` on a deque created with
`deque(maxlen=buffer_size)` (receiver.py lines 45 and 85). -/
def dequeAppend (maxlen : Nat) (q : List β) (b : β) : List β :=
  let q' := q ++ [b]
  if q'.length ≤ maxlen then q' else q'.drop (q'.length - maxlen)

/-- Little-endian byte serialization of one 32-bit sample word; one cell of
`indata.astype(np.float32).tobytes()` in `AudioSender.audio_callback`
(sender.py line 78). -/
def word_to_bytes (w : Nat) : List Nat :=
  [w % 256, w / 256 % 256, w / 65536 % 256, w / 16777216 % 256]

/-- Reassemble one 32-bit sample word from 4 little-endian bytes (one item of
`np.frombuffer(data, dtype=np.float32)`). -/
def bytes_to_word (b0 b1 b2 b3 : Nat) : Nat :=
  b0 + 256 * b1 + 65536 * b2 + 16777216 * b3

/-- Group a byte string into 32-bit words, 4 bytes at a time. -/
def bytes_to_words : List Nat → List Nat
  | b0 :: b1 :: b2 :: b3 :: rest => bytes_to_word b0 b1 b2 b3 :: bytes_to_words rest
  | _ => []

/-- `np.frombuffer(data, dtype=np.float32)` (receiver.py line 81): raises
`ValueError` (modelled as `none`) when the byte length is not a multiple of
the 4-byte item size; otherwise reinterprets the bytes as words. -/
def frombuffer_float32 (data : List Nat) : Option (List Nat) :=
  if data.length % 4 = 0 then some (bytes_to_words data) else none

/-- Split a flat word list into consecutive rows of `c` words.  The first
argument is fuel (instantiated with the list length) so that the definition is
structurally recursive and computable by the kernel. -/
def chunk_go (c : Nat) : Nat → List β → List (List β)
  | _, [] => []
  | 0, _ :: _ => []
  | fuel + 1, x :: l => (x :: l).take c :: chunk_go c fuel ((x :: l).drop c)

/-- Row-major view of a flat list as rows of length `c` (total function;
only used under the `reshape` guard below). -/
def chunk_rows (c : Nat) (l : List β) : List (List β) :=
  chunk_go c l.length l

/-- `audio_data.reshape(-1, self.channels)` (receiver.py line 82): raises
`ValueError` (modelled as `none`) when the number of words is not divisible by
`channels` (or when `channels = 0`, for which numpy cannot infer the `-1`
dimension); otherwise produces the list of frames, each a row of `channels`
words. -/
def reshape_rows (channels : Nat) (ws : List Nat) : Option (List (List Nat)) :=
  if 0 < channels ∧ ws.length % channels = 0 then some (chunk_rows channels ws)
  else none

/-- The receiver's decode of one datagram payload: `frombuffer` then
`reshape(-1, channels)` (receiver.py lines 81-82); `none` models a raised
`ValueError` (caught by the ingest loop's `except Exception` handler). -/
def decode_datagram (channels : Nat) (data : List Nat) :
    Option (List (List Nat)) :=
  match frombuffer_float32 data with
  | none => none
  | some ws => reshape_rows channels ws

/-- One iteration of `AudioReceiver.receive_audio` for one received datagram
(receiver.py lines 76-91): the byte/chunk counters are incremented first; then
the payload is decoded, and on success the block is appended to the bounded
deque.  A decode error is caught by the `except Exception` handler (the
datagram is dropped, the loop continues), so the function is total. -/
def receive_audio_step (s : RecvState (List Nat)) (data : List Nat) :
    RecvState (List Nat) :=
  let s1 := { s with bytes_received := s.bytes_received + data.length,
                     chunks_received := s.chunks_received + 1 }
  match decode_datagram s1.channels data with
  | some block =>
    { s1 with audio_buffer := dequeAppend s1.buffer_size s1.audio_buffer block }
  | none => s1

/-- `AudioSender.audio_callback` serialization (sender.py line 78):
`indata.astype(np.float32).tobytes()` — the row-major (interleaved) byte dump
of the `(frame_count, channels)` float32 array.  `astype(np.float32)` on a
float32 array copies the bit patterns unchanged. -/
def sender_encode (block : List (List Nat)) : List Nat :=
  block.flatten.flatMap word_to_bytes

/-- All audio data currently buffered by the receiver, in playback order:
carry-over first, then the queued blocks front (oldest) to back. -/
def content (s : RecvState α) : List α :=
  (s.carry_over.getD []) ++ s.audio_buffer.flatten

/-- Number of buffered frames. -/
def available (s : RecvState α) : Nat :=
  (content s).length

/-- The structural carry-over invariant: the slot is either clear or holds a
nonempty block (`partial_chunk` is only ever assigned a strict, nonempty tail
of a block). -/
def carry_inv (pc : Option (List α)) : Prop :=
  pc = none ∨ ∃ p, pc = some p ∧ p ≠ []

/-! ### Instrumentation for the exception path of the callback (receiver.py
lines 105-139): the body performs a sequence of slice assignments into the
fixed-length `outdata` buffer; the `except` handler runs `outdata.fill(0)` and
returns normally. -/

/-- `outdata[off : off + len(vals)] = vals` on a fixed-length buffer. -/
def write_slice (buf : List α) (off : Nat) (vals : List α) : List α :=
  buf.take off ++ vals ++ buf.drop (off + vals.length)

/-- Apply a sequence of slice assignments in order. -/
def apply_writes : List α → List (Nat × List α) → List α
  | buf, [] => buf
  | buf, (off, vals) :: rest => apply_writes (write_slice buf off vals) rest

/-- The slice assignments performed by the queue-drain loop, in order (one per
popped block), mirroring `fill_from_buffer` step for step. -/
def fill_writes (frames : Nat) : Nat → List (List α) → Option (List α) →
    List (Nat × List α)
  | _, [], _ => []
  | fw, chunk :: rest, pc =>
    if fw < frames then
      (fw, chunk.take (min chunk.length (frames - fw))) ::
        fill_writes frames (fw + min chunk.length (frames - fw)) rest
          (if min chunk.length (frames - fw) < chunk.length
           then some (chunk.drop (min chunk.length (frames - fw))) else pc)
    else []

/-- All slice assignments one callback invocation performs on `outdata`, in
order: the carry-over copy (at offset 0), one per popped block, and the final
silence fill when `frames_written < frames`. -/
def callback_writes (zero : α) (s : RecvState α) (frames : Nat) :
    List (Nat × List α) :=
  (0, (take_carry frames s.carry_over).1) ::
    fill_writes frames (take_carry frames s.carry_over).2.1 s.audio_buffer
      (take_carry frames s.carry_over).2.2 ++
    (if (fill_from_buffer frames (take_carry frames s.carry_over).2.1
          s.audio_buffer (take_carry frames s.carry_over).2.2).2.1 < frames then
      [((fill_from_buffer frames (take_carry frames s.carry_over).2.1
            s.audio_buffer (take_carry frames s.carry_over).2.2).2.1,
        List.replicate (frames -
          (fill_from_buffer frames (take_carry frames s.carry_over).2.1
            s.audio_buffer (take_carry frames s.carry_over).2.2).2.1) zero)]
    else [])

/-- The callback with a fault oracle: `fault = some k` raises an exception at
the k-th slice assignment of the body (if the body performs that many), upon
which the `except` handler runs `outdata.fill(0)` on whatever partial contents
the buffer holds and the invocation returns normally.  Returns the final
contents of `outdata` (initially `init`, the garbage left from the previous
period) and whether an exception was caught. -/
def audio_callback_faulting (zero : α) (s : RecvState α) (frames : Nat)
    (init : List α) (fault : Option Nat) : List α × Bool :=
  match fault with
  | some k =>
    if k < (callback_writes zero s frames).length then
      (List.replicate
        (apply_writes init ((callback_writes zero s frames).take k)).length zero,
        true)
    else (apply_writes init (callback_writes zero s frames), false)
  | none => (apply_writes init (callback_writes zero s frames), false)

/-! ### Instrumentation for the pops of the queue-drain loop -/

/-- For each iteration of the drain loop that pops a block, record the value of
the carry-over slot at the moment of the pop and whether this pop left a
remainder in the slot; mirrors `fill_from_buffer` step for step. -/
def fill_pop_trace (frames : Nat) : Nat → List (List α) → Option (List α) →
    List (Option (List α) × Bool)
  | _, [], _ => []
  | fw, chunk :: rest, pc =>
    if fw < frames then
      (pc, decide (min chunk.length (frames - fw) < chunk.length)) ::
        fill_pop_trace frames (fw + min chunk.length (frames - fw)) rest
          (if min chunk.length (frames - fw) < chunk.length
           then some (chunk.drop (min chunk.length (frames - fw))) else pc)
    else []

/-- The pops performed by one callback invocation: the loop starts from the
`frames_written` and carry-over left by the carry-over consumption step. -/
def callback_pop_trace (s : RecvState α) (frames : Nat) :
    List (Option (List α) × Bool) :=
  fill_pop_trace frames (take_carry frames s.carry_over).2.1 s.audio_buffer
    (take_carry frames s.carry_over).2.2


/-! ### Properties of the carry-over consumption step -/

theorem take_carry_none_eq (frames : Nat) :
    take_carry frames (none : Option (List α)) = ([], 0, none) := rfl

theorem take_carry_empty_eq (frames : Nat) (p : List α) (hp : p.length = 0) :
    take_carry frames (some p) = ([], 0, some p) := by
  simp [take_carry, hp]

theorem take_carry_lt_eq (frames : Nat) (p : List α) (hp : 0 < p.length)
    (hpf : frames < p.length) :
    take_carry frames (some p) = (p.take frames, frames, some (p.drop frames)) := by
  have h1 : min p.length frames = frames := by omega
  simp only [take_carry, if_pos hp, h1, if_pos hpf]

theorem take_carry_ge_eq (frames : Nat) (p : List α) (hp : 0 < p.length)
    (hpf : p.length ≤ frames) :
    take_carry frames (some p) = (p, p.length, none) := by
  have h1 : min p.length frames = p.length := by omega
  have h2 : ¬ p.length < p.length := by omega
  simp only [take_carry, if_pos hp, h1, if_neg h2, List.take_length]

theorem take_carry_append (frames : Nat) (pc : Option (List α)) :
    (take_carry frames pc).1 ++ ((take_carry frames pc).2.2.getD []) = pc.getD [] := by
  rcases pc with _ | p
  · simp [take_carry_none_eq]
  · rcases Nat.eq_zero_or_pos p.length with hp | hp
    · simp [take_carry_empty_eq frames p hp]
    · rcases Nat.lt_or_ge frames p.length with hpf | hpf
      · simp [take_carry_lt_eq frames p hp hpf, List.take_append_drop]
      · simp [take_carry_ge_eq frames p hp hpf]

theorem take_carry_fw (frames : Nat) (pc : Option (List α)) :
    (take_carry frames pc).2.1 = min (pc.getD []).length frames := by
  rcases pc with _ | p
  · simp [take_carry_none_eq]
  · rcases Nat.eq_zero_or_pos p.length with hp | hp
    · simp [take_carry_empty_eq frames p hp, hp]
    · rcases Nat.lt_or_ge frames p.length with hpf | hpf
      · simp [take_carry_lt_eq frames p hp hpf]; omega
      · simp [take_carry_ge_eq frames p hp hpf]; omega

theorem take_carry_len (frames : Nat) (pc : Option (List α)) :
    (take_carry frames pc).1.length = (take_carry frames pc).2.1 := by
  rcases pc with _ | p
  · simp [take_carry_none_eq]
  · rcases Nat.eq_zero_or_pos p.length with hp | hp
    · simp [take_carry_empty_eq frames p hp]
    · rcases Nat.lt_or_ge frames p.length with hpf | hpf
      · simp [take_carry_lt_eq frames p hp hpf]; omega
      · simp [take_carry_ge_eq frames p hp hpf]

theorem take_carry_out (frames : Nat) (pc : Option (List α)) :
    (take_carry frames pc).1 = (pc.getD []).take frames := by
  rcases pc with _ | p
  · simp [take_carry_none_eq]
  · rcases Nat.eq_zero_or_pos p.length with hp | hp
    · have hpe : p = [] := List.length_eq_zero.mp hp
      subst hpe
      simp [take_carry_empty_eq frames [] rfl]
    · rcases Nat.lt_or_ge frames p.length with hpf | hpf
      · simp [take_carry_lt_eq frames p hp hpf]
      · simp [take_carry_ge_eq frames p hp hpf, List.take_of_length_le hpf]

theorem take_carry_drained (frames : Nat) (pc : Option (List α))
    (h : (take_carry frames pc).2.1 < frames) :
    ((take_carry frames pc).2.2).getD [] = [] := by
  rcases pc with _ | p
  · simp [take_carry_none_eq]
  · rcases Nat.eq_zero_or_pos p.length with hp | hp
    · have hpe : p = [] := List.length_eq_zero.mp hp
      subst hpe
      simp [take_carry_empty_eq frames [] rfl]
    · rcases Nat.lt_or_ge frames p.length with hpf | hpf
      · rw [take_carry_lt_eq frames p hp hpf] at h
        simp at h
      · simp [take_carry_ge_eq frames p hp hpf]

theorem take_carry_cleared (frames : Nat) (pc : Option (List α))
    (hinv : carry_inv pc) (h : (take_carry frames pc).2.1 < frames) :
    (take_carry frames pc).2.2 = none := by
  rcases hinv with hn | ⟨p, hpc, hne⟩
  · subst hn; simp [take_carry_none_eq]
  · subst hpc
    have hp : 0 < p.length := List.length_pos.mpr hne
    rcases Nat.lt_or_ge frames p.length with hpf | hpf
    · rw [take_carry_lt_eq frames p hp hpf] at h
      simp at h
    · simp [take_carry_ge_eq frames p hp hpf]

theorem take_carry_inv (frames : Nat) (pc : Option (List α))
    (hinv : carry_inv pc) : carry_inv (take_carry frames pc).2.2 := by
  rcases hinv with hn | ⟨p, hpc, hne⟩
  · subst hn; left; simp [take_carry_none_eq]
  · subst hpc
    have hp : 0 < p.length := List.length_pos.mpr hne
    rcases Nat.lt_or_ge frames p.length with hpf | hpf
    · right
      refine ⟨p.drop frames, by simp [take_carry_lt_eq frames p hp hpf], ?_⟩
      have hlen : (p.drop frames).length = p.length - frames := by simp
      intro hcon
      rw [hcon] at hlen
      simp at hlen
      omega
    · left; simp [take_carry_ge_eq frames p hp hpf]

/-! ### Properties of the queue-drain loop -/

theorem fill_noop (frames fw : Nat) (q : List (List α)) (pc : Option (List α))
    (h : frames ≤ fw) : fill_from_buffer frames fw q pc = ([], fw, q, pc) := by
  match q with
  | [] => simp [fill_from_buffer]
  | chunk :: rest =>
    have hnl : ¬ fw < frames := by omega
    simp [fill_from_buffer, hnl]

theorem fill_spec (frames : Nat) (q : List (List α)) :
    ∀ (fw : Nat) (pc : Option (List α)), fw ≤ frames →
    fw ≤ (fill_from_buffer frames fw q pc).2.1 ∧
    (fill_from_buffer frames fw q pc).2.1 = min frames (fw + q.flatten.length) ∧
    (fill_from_buffer frames fw q pc).1 =
      q.flatten.take ((fill_from_buffer frames fw q pc).2.1 - fw) ∧
    (fill_from_buffer frames fw q pc).1.length =
      (fill_from_buffer frames fw q pc).2.1 - fw ∧
    (pc.getD [] = [] →
      (fill_from_buffer frames fw q pc).1 ++
        ((fill_from_buffer frames fw q pc).2.2.2.getD []) ++
        (fill_from_buffer frames fw q pc).2.2.1.flatten = q.flatten) := by
  induction q with
  | nil =>
    intro fw pc hfw
    simp only [fill_from_buffer]
    refine ⟨le_refl fw, by simp; omega, by simp, by simp, ?_⟩
    intro hpc
    simp [hpc]
  | cons chunk rest ih =>
    intro fw pc hfw
    by_cases hlt : fw < frames
    · rcases hrec : fill_from_buffer frames (fw + min chunk.length (frames - fw)) rest
          (if min chunk.length (frames - fw) < chunk.length
           then some (chunk.drop (min chunk.length (frames - fw))) else pc) with
        ⟨out, fw', q', pc'⟩
      have hunfold : fill_from_buffer frames fw (chunk :: rest) pc =
          (chunk.take (min chunk.length (frames - fw)) ++ out, fw', q', pc') := by
        simp only [fill_from_buffer, if_pos hlt, hrec]
      have hle : fw + min chunk.length (frames - fw) ≤ frames := by omega
      obtain ⟨ih1, ih2, ih3, ih4, ih5⟩ := ih (fw + min chunk.length (frames - fw))
        (if min chunk.length (frames - fw) < chunk.length
         then some (chunk.drop (min chunk.length (frames - fw))) else pc) hle
      rw [hrec] at ih1 ih2 ih3 ih4 ih5
      simp only at ih1 ih2 ih3 ih4 ih5
      rw [hunfold]
      simp only [List.flatten_cons, List.length_append]
      have htklen : (chunk.take (min chunk.length (frames - fw))).length =
          min chunk.length (frames - fw) := by simp
      refine ⟨by omega, by omega, ?_,
        by rw [htklen, ih4]; omega, ?_⟩
      · -- output of the loop is the corresponding slice of the queue content
        rw [List.take_append_eq_append_take]
        by_cases hsplit : min chunk.length (frames - fw) < chunk.length
        · -- the popped block was split: the loop stopped at frames
          have hfw' : fw' = frames := by
            rw [ih2]; omega
          have hout : out = [] := by
            rw [ih3]
            have hz : fw' - (fw + min chunk.length (frames - fw)) = 0 := by omega
            simp [hz]
          have h1 : chunk.take (fw' - fw) = chunk.take (min chunk.length (frames - fw)) := by
            have : fw' - fw = min chunk.length (frames - fw) := by omega
            rw [this]
          have h2 : rest.flatten.take (fw' - fw - chunk.length) = [] := by
            have hz : fw' - fw - chunk.length = 0 := by omega
            simp [hz]
          rw [h1, h2, hout]
        · -- the popped block was fully consumed
          have hn : min chunk.length (frames - fw) = chunk.length := by omega
          have h1 : chunk.take (fw' - fw) = chunk.take (min chunk.length (frames - fw)) := by
            rw [hn, List.take_of_length_le (by omega), List.take_length]
          have h2 : rest.flatten.take (fw' - fw - chunk.length) =
              rest.flatten.take (fw' - (fw + min chunk.length (frames - fw))) := by
            rw [hn]
            congr 1
            omega
          rw [h1, h2, ih3]
      · -- conservation: loop output ++ carry-over ++ remaining queue = queue content
        intro hpc
        by_cases hsplit : min chunk.length (frames - fw) < chunk.length
        · -- remainder of the popped block became the carry-over; loop exited
          have hn : fw + min chunk.length (frames - fw) = frames := by omega
          have hstop := fill_noop frames (fw + min chunk.length (frames - fw)) rest
            (if min chunk.length (frames - fw) < chunk.length
             then some (chunk.drop (min chunk.length (frames - fw))) else pc) (by omega)
          rw [hstop] at hrec
          simp only [Prod.mk.injEq] at hrec
          obtain ⟨ho, hf, hq, hp⟩ := hrec
          rw [← ho, ← hq, ← hp]
          simp only [if_pos hsplit, Option.getD_some, List.append_nil]
          rw [List.take_append_drop]
        · have h5 := ih5 (by simp [hsplit, hpc])
          have hn : min chunk.length (frames - fw) = chunk.length := by omega
          simp only [List.append_assoc] at h5 ⊢
          rw [h5, hn, List.take_length]
    · have hnoop := fill_noop frames fw (chunk :: rest) pc (by omega)
      rw [hnoop]
      refine ⟨le_refl fw, by simp; omega, by simp, by simp, ?_⟩
      intro hpc
      simp [hpc]

/-- The queue-drain loop only ever stores a nonempty remainder in the
carry-over slot. -/
theorem fill_inv (frames : Nat) (q : List (List α)) :
    ∀ (fw : Nat) (pc : Option (List α)), carry_inv pc →
    carry_inv (fill_from_buffer frames fw q pc).2.2.2 := by
  induction q with
  | nil =>
    intro fw pc hinv
    simpa [fill_from_buffer] using hinv
  | cons chunk rest ih =>
    intro fw pc hinv
    by_cases hlt : fw < frames
    · rcases hrec : fill_from_buffer frames (fw + min chunk.length (frames - fw)) rest
          (if min chunk.length (frames - fw) < chunk.length
           then some (chunk.drop (min chunk.length (frames - fw))) else pc) with
        ⟨out, fw', q', pc'⟩
      have hunfold : fill_from_buffer frames fw (chunk :: rest) pc =
          (chunk.take (min chunk.length (frames - fw)) ++ out, fw', q', pc') := by
        simp only [fill_from_buffer, if_pos hlt, hrec]
      have hinv' : carry_inv (if min chunk.length (frames - fw) < chunk.length
          then some (chunk.drop (min chunk.length (frames - fw))) else pc) := by
        by_cases hsplit : min chunk.length (frames - fw) < chunk.length
        · right
          refine ⟨chunk.drop (min chunk.length (frames - fw)), by simp [hsplit], ?_⟩
          have hlen : (chunk.drop (min chunk.length (frames - fw))).length =
              chunk.length - min chunk.length (frames - fw) := by simp
          intro hcon
          rw [hcon] at hlen
          simp at hlen
          omega
        · simpa [hsplit] using hinv
      have := ih (fw + min chunk.length (frames - fw)) _ hinv'
      rw [hrec] at this
      simp only at this
      rw [hunfold]
      exact this
    · have hnoop := fill_noop frames fw (chunk :: rest) pc (by omega)
      rw [hnoop]
      exact hinv

/-! ### One invocation of the playback callback -/

/-- Master specification of one `audio_callback` invocation: the output is the
first `frames` buffered frames padded with silence, the buffered content
advances by `frames`, the under-run counter increments exactly when no data at
all was available (and some was requested), and the ingest-side fields are
untouched. -/
theorem audio_callback_spec (zero : α) (s : RecvState α) (frames : Nat) :
    (audio_callback zero s frames).2 =
      (content s).take frames ++
        List.replicate (frames - min frames (available s)) zero ∧
    content (audio_callback zero s frames).1 = (content s).drop frames ∧
    (audio_callback zero s frames).1.underruns =
      s.underruns + (if available s = 0 ∧ 0 < frames then 1 else 0) ∧
    (audio_callback zero s frames).1.channels = s.channels ∧
    (audio_callback zero s frames).1.buffer_size = s.buffer_size ∧
    (audio_callback zero s frames).1.bytes_received = s.bytes_received ∧
    (audio_callback zero s frames).1.chunks_received = s.chunks_received := by
  rcases h0 : take_carry frames s.carry_over with ⟨out0, fw0, pc0⟩
  rcases h1 : fill_from_buffer frames fw0 s.audio_buffer pc0 with ⟨out1, fw1, q1, pc1⟩
  have hcb : audio_callback zero s frames =
      (if fw1 < frames then
        ({ s with audio_buffer := q1, carry_over := pc1,
                  underruns := s.underruns + (if fw1 = 0 then 1 else 0) },
          out0 ++ out1 ++ List.replicate (frames - fw1) zero)
      else ({ s with audio_buffer := q1, carry_over := pc1 }, out0 ++ out1)) := by
    simp only [audio_callback, h0, h1]
  have hfw0 : fw0 = min (s.carry_over.getD []).length frames := by
    have h := take_carry_fw frames s.carry_over
    rw [h0] at h
    exact h
  have t_len : out0.length = fw0 := by
    have h := take_carry_len frames s.carry_over
    rw [h0] at h
    exact h
  have t_out : out0 = (s.carry_over.getD []).take frames := by
    have h := take_carry_out frames s.carry_over
    rw [h0] at h
    exact h
  have t_app : out0 ++ pc0.getD [] = s.carry_over.getD [] := by
    have h := take_carry_append frames s.carry_over
    rw [h0] at h
    exact h
  have hfle : fw0 ≤ frames := by omega
  obtain ⟨f1, f2, f3, f4, f5⟩ := fill_spec frames s.audio_buffer fw0 pc0 hfle
  rw [h1] at f1 f2 f3 f4 f5
  simp only at f1 f2 f3 f4 f5
  have hav : available s =
      (s.carry_over.getD []).length + s.audio_buffer.flatten.length := by
    simp [available, content]
  by_cases hc : fw0 < frames
  · -- the queue-drain loop ran: the carry-over was fully consumed first
    have hpc0 : pc0.getD [] = [] := by
      have h := take_carry_drained frames s.carry_over (by rw [h0]; exact hc)
      rw [h0] at h
      exact h
    have hout0 : out0 = s.carry_over.getD [] := by
      rw [hpc0, List.append_nil] at t_app
      exact t_app
    have hfw0' : fw0 = (s.carry_over.getD []).length := by omega
    have hfw1A : fw1 = min frames (available s) := by omega
    have f5' := f5 hpc0
    rw [List.append_assoc] at f5'
    have e3 : pc1.getD [] ++ q1.flatten = s.audio_buffer.flatten.drop out1.length := by
      rw [← f5', List.drop_left]
    refine ⟨?_, ?_, ?_, ?_, ?_, ?_, ?_⟩
    · -- output contents
      have e1 : (content s).take frames =
          s.carry_over.getD [] ++
            s.audio_buffer.flatten.take (frames - (s.carry_over.getD []).length) := by
        rw [content, List.take_append_eq_append_take,
          List.take_of_length_le (by omega)]
      have e2 : s.audio_buffer.flatten.take (frames - (s.carry_over.getD []).length) =
          out1 := by
        rw [f3]
        apply List.take_eq_take.mpr
        omega
      by_cases hlt1 : fw1 < frames
      · rw [hcb, if_pos hlt1]
        rw [e1, e2, hout0, hfw1A]
      · rw [hcb, if_neg hlt1]
        have hfr : frames - min frames (available s) = 0 := by omega
        rw [e1, e2, hout0, hfr]
        simp
    · -- remaining buffered content
      have hcar : content ((if fw1 < frames then
          ({ s with audio_buffer := q1, carry_over := pc1,
                    underruns := s.underruns + (if fw1 = 0 then 1 else 0) },
            out0 ++ out1 ++ List.replicate (frames - fw1) zero)
        else ({ s with audio_buffer := q1, carry_over := pc1 }, out0 ++ out1))).1 =
          pc1.getD [] ++ q1.flatten := by
        by_cases hlt1 : fw1 < frames
        · rw [if_pos hlt1]; simp [content]
        · rw [if_neg hlt1]; simp [content]
      rw [hcb, hcar, e3, f4]
      have hd1 : List.drop frames (s.carry_over.getD []) = ([] : List α) :=
        List.drop_of_length_le (by omega)
      rw [content, List.drop_append_eq_append_drop, hd1, List.nil_append]
      rcases Nat.lt_or_ge (fw0 + s.audio_buffer.flatten.length) frames with hL | hL
      · have hd2 : List.drop (fw1 - fw0) s.audio_buffer.flatten = ([] : List α) :=
          List.drop_of_length_le (by omega)
        have hd3 : List.drop (frames - (s.carry_over.getD []).length)
            s.audio_buffer.flatten = ([] : List α) :=
          List.drop_of_length_le (by omega)
        rw [hd2, hd3]
      · have he : fw1 - fw0 = frames - (s.carry_over.getD []).length := by omega
        rw [he]
    · -- under-run counter
      by_cases hlt1 : fw1 < frames
      · rw [hcb, if_pos hlt1]
        have hiff : (fw1 = 0) = (available s = 0 ∧ 0 < frames) := by
          apply propext
          constructor
          · intro h
            constructor <;> omega
          · intro h
            omega
        simp only [hiff]
      · rw [hcb, if_neg hlt1]
        have hcond : ¬ (available s = 0 ∧ 0 < frames) := by omega
        simp [hcond]
    · by_cases hlt1 : fw1 < frames
      · rw [hcb, if_pos hlt1]
      · rw [hcb, if_neg hlt1]
    · by_cases hlt1 : fw1 < frames
      · rw [hcb, if_pos hlt1]
      · rw [hcb, if_neg hlt1]
    · by_cases hlt1 : fw1 < frames
      · rw [hcb, if_pos hlt1]
      · rw [hcb, if_neg hlt1]
    · by_cases hlt1 : fw1 < frames
      · rw [hcb, if_pos hlt1]
      · rw [hcb, if_neg hlt1]
  · -- the carry-over alone satisfied the request; the loop did not run
    have hfw0f : fw0 = frames := by omega
    have hpcl : frames ≤ (s.carry_over.getD []).length := by omega
    have hstop := fill_noop frames fw0 s.audio_buffer pc0 (by omega)
    rw [h1] at hstop
    simp only [Prod.mk.injEq] at hstop
    obtain ⟨ho1, hf1, hq1, hp1⟩ := hstop
    have hnlt : ¬ fw1 < frames := by omega
    rw [hcb, if_neg hnlt]
    have hpcd : pc0.getD [] = (s.carry_over.getD []).drop frames := by
      have h := congrArg (fun l => List.drop out0.length l) t_app
      simp only at h
      rw [List.drop_left] at h
      rw [h, t_len, hfw0f]
    have hmin : min frames (available s) = frames := by omega
    refine ⟨?_, ?_, ?_, by simp, by simp, by simp, by simp⟩
    · show out0 ++ out1 = List.take frames (content s) ++
        List.replicate (frames - min frames (available s)) zero
      rw [ho1, List.append_nil, t_out, hmin, Nat.sub_self, List.replicate_zero,
        List.append_nil, content, List.take_append_eq_append_take,
        Nat.sub_eq_zero_of_le hpcl, List.take_zero, List.append_nil]
    · have hcar2 : content (({ s with audio_buffer := q1, carry_over := pc1 },
          out0 ++ out1) : RecvState α × List α).1 = pc1.getD [] ++ q1.flatten := by
        simp [content]
      rw [hcar2, hp1, hq1, hpcd]
      rw [content, List.drop_append_eq_append_drop, Nat.sub_eq_zero_of_le hpcl,
        List.drop_zero]
    · have hcond : ¬ (available s = 0 ∧ 0 < frames) := by omega
      simp [hcond]

/-- The callback preserves the carry-over invariant. -/
theorem audio_callback_inv (zero : α) (s : RecvState α) (frames : Nat)
    (hinv : carry_inv s.carry_over) :
    carry_inv (audio_callback zero s frames).1.carry_over := by
  rcases h0 : take_carry frames s.carry_over with ⟨out0, fw0, pc0⟩
  rcases h1 : fill_from_buffer frames fw0 s.audio_buffer pc0 with ⟨out1, fw1, q1, pc1⟩
  have hcb : audio_callback zero s frames =
      (if fw1 < frames then
        ({ s with audio_buffer := q1, carry_over := pc1,
                  underruns := s.underruns + (if fw1 = 0 then 1 else 0) },
          out0 ++ out1 ++ List.replicate (frames - fw1) zero)
      else ({ s with audio_buffer := q1, carry_over := pc1 }, out0 ++ out1)) := by
    simp only [audio_callback, h0, h1]
  have hpc0 : carry_inv pc0 := by
    have h := take_carry_inv frames s.carry_over hinv
    rw [h0] at h
    exact h
  have hpc1 : carry_inv pc1 := by
    have h := fill_inv frames s.audio_buffer fw0 pc0 hpc0
    rw [h1] at h
    exact h
  by_cases hlt1 : fw1 < frames
  · rw [hcb, if_pos hlt1]
    exact hpc1
  · rw [hcb, if_neg hlt1]
    exact hpc1

/-! ### Sequences of callback invocations -/

theorem run_callbacks_cons (zero : α) (s : RecvState α) (f : Nat) (fs : List Nat) :
    run_callbacks zero s (f :: fs) =
      ((run_callbacks zero (audio_callback zero s f).1 fs).1,
        (audio_callback zero s f).2 ::
          (run_callbacks zero (audio_callback zero s f).1 fs).2) := by
  rcases h1 : audio_callback zero s f with ⟨s1, out⟩
  rcases h2 : run_callbacks zero s1 fs with ⟨s2, outs⟩
  simp only [run_callbacks, h1, h2]

theorem run_callbacks_append (zero : α) (fs1 fs2 : List Nat) :
    ∀ s : RecvState α, run_callbacks zero s (fs1 ++ fs2) =
      ((run_callbacks zero (run_callbacks zero s fs1).1 fs2).1,
        (run_callbacks zero s fs1).2 ++
          (run_callbacks zero (run_callbacks zero s fs1).1 fs2).2) := by
  induction fs1 with
  | nil => intro s; simp [run_callbacks]
  | cons f fs ih =>
    intro s
    rw [List.cons_append, run_callbacks_cons, run_callbacks_cons, ih]
    simp

theorem run_callbacks_snoc (zero : α) (s : RecvState α) (fs : List Nat) (f : Nat) :
    run_callbacks zero s (fs ++ [f]) =
      ((audio_callback zero (run_callbacks zero s fs).1 f).1,
        (run_callbacks zero s fs).2 ++
          [(audio_callback zero (run_callbacks zero s fs).1 f).2]) := by
  rw [run_callbacks_append, run_callbacks_cons]
  simp [run_callbacks]

theorem sum_replicate_nat (k f : Nat) : (List.replicate k f).sum = k * f := by
  induction k with
  | zero => simp
  | succ k ih =>
    rw [List.replicate_succ, List.sum_cons, ih]
    ring

/-- Running a sequence of requests against sufficient buffered data: the
concatenated outputs are exactly the first `Σ fᵢ` buffered frames, the
buffered content advances by `Σ fᵢ`, and no under-run is recorded. -/
theorem run_spec (zero : α) (fs : List Nat) :
    ∀ (s : RecvState α), fs.sum ≤ available s →
    ((run_callbacks zero s fs).2).flatten = (content s).take fs.sum ∧
    content (run_callbacks zero s fs).1 = (content s).drop fs.sum ∧
    (run_callbacks zero s fs).1.underruns = s.underruns := by
  induction fs with
  | nil => intro s _; simp [run_callbacks]
  | cons f fs ih =>
    intro s h
    rw [List.sum_cons] at h
    obtain ⟨c1, c2, c3, _, _, _, _⟩ := audio_callback_spec zero s f
    have hminf : min f (available s) = f := by omega
    have hout : (audio_callback zero s f).2 = (content s).take f := by
      rw [c1, hminf, Nat.sub_self, List.replicate_zero, List.append_nil]
    have hav1 : available (audio_callback zero s f).1 = available s - f := by
      rw [available, c2, List.length_drop]
      rfl
    obtain ⟨i1, i2, i3⟩ := ih (audio_callback zero s f).1 (by omega)
    rw [run_callbacks_cons]
    refine ⟨?_, ?_, ?_⟩
    · simp only [List.flatten_cons, List.sum_cons]
      rw [hout, i1, c2, List.take_add]
    · simp only [List.sum_cons]
      rw [i2, c2, List.drop_drop]
    · rw [i3, c3]
      have hcond : ¬ (available s = 0 ∧ 0 < f) := by omega
      simp [hcond]

/-! ### Decode and serialization lemmas -/

theorem bytes_to_words_length : ∀ (data : List Nat),
    (bytes_to_words data).length = data.length / 4
  | b0 :: b1 :: b2 :: b3 :: rest => by
    have ih := bytes_to_words_length rest
    simp only [bytes_to_words, List.length_cons, ih]
    omega
  | [] => rfl
  | [_] => by simp [bytes_to_words]
  | [_, _] => by simp [bytes_to_words]
  | [_, _, _] => by simp [bytes_to_words]

/-- Any datagram whose byte length is not a multiple of `channels * 4` fails
to decode: either `frombuffer` rejects it (length not a multiple of 4) or the
reshape rejects it (word count not divisible by `channels`). -/
theorem decode_datagram_malformed (channels : Nat) (data : List Nat)
    (h : data.length % (channels * 4) ≠ 0) :
    decode_datagram channels data = none := by
  by_cases h4 : data.length % 4 = 0
  · rcases Nat.eq_zero_or_pos channels with hc | hc
    · subst hc
      simp [decode_datagram, frombuffer_float32, h4, reshape_rows]
    · have hmod : (bytes_to_words data).length % channels ≠ 0 := by
        rw [bytes_to_words_length]
        intro hcon
        apply h
        have hdvd4 : 4 ∣ data.length := Nat.dvd_of_mod_eq_zero h4
        obtain ⟨m, hm⟩ := Nat.dvd_of_mod_eq_zero hcon
        have h44 : data.length / 4 * 4 = data.length := Nat.div_mul_cancel hdvd4
        have hlen : data.length = channels * 4 * m := by
          rw [← h44, hm]
          ring
        rw [hlen]
        exact Nat.mul_mod_right _ _
      have hcpos : ¬ (0 < channels ∧ (bytes_to_words data).length % channels = 0) := by
        intro hcon
        exact hmod hcon.2
      simp [decode_datagram, frombuffer_float32, h4, reshape_rows, hcpos]
  · simp [decode_datagram, frombuffer_float32, h4]

theorem word_bytes_roundtrip (w : Nat) (hw : w < 4294967296) :
    bytes_to_word (w % 256) (w / 256 % 256) (w / 65536 % 256)
      (w / 16777216 % 256) = w := by
  simp only [bytes_to_word]
  omega

theorem bytes_to_words_flatMap (ws : List Nat) (hw : ∀ w ∈ ws, w < 4294967296) :
    bytes_to_words (ws.flatMap word_to_bytes) = ws := by
  induction ws with
  | nil => rfl
  | cons w ws ih =>
    have hw0 : w < 4294967296 := hw w (by simp)
    have hws : ∀ x ∈ ws, x < 4294967296 := fun x hx => hw x (by simp [hx])
    simp only [List.flatMap_cons, word_to_bytes, List.cons_append, List.nil_append]
    simp only [bytes_to_words]
    rw [ih hws, word_bytes_roundtrip w hw0]

theorem flatMap_word_to_bytes_length (ws : List Nat) :
    (ws.flatMap word_to_bytes).length = 4 * ws.length := by
  induction ws with
  | nil => rfl
  | cons w ws ih =>
    simp only [List.flatMap_cons, List.length_append, ih, word_to_bytes,
      List.length_cons, List.length_nil]
    ring

theorem flatten_length_uniform (c : Nat) (block : List (List β))
    (hrow : ∀ r ∈ block, r.length = c) :
    block.flatten.length = c * block.length := by
  induction block with
  | nil => simp
  | cons r rest ih =>
    have h1 : r.length = c := hrow r (by simp)
    have h2 : ∀ x ∈ rest, x.length = c := fun x hx => hrow x (by simp [hx])
    simp only [List.flatten_cons, List.length_append, h1, ih h2, List.length_cons]
    ring

theorem chunk_go_flatten (c : Nat) (hc : 0 < c) :
    ∀ (block : List (List β)) (fuel : Nat), (∀ r ∈ block, r.length = c) →
      block.flatten.length ≤ fuel → chunk_go c fuel block.flatten = block := by
  intro block
  induction block with
  | nil =>
    intro fuel _ _
    rcases fuel with _ | fuel'
    · rfl
    · rfl
  | cons r rest ih =>
    intro fuel hr hf
    have hrc : r.length = c := hr r (by simp)
    have hrest : ∀ x ∈ rest, x.length = c := fun x hx => hr x (by simp [hx])
    have hflen : (r :: rest).flatten.length = c + rest.flatten.length := by
      simp [hrc]
    rcases fuel with _ | fuel'
    · omega
    · rcases r with _ | ⟨a, r'⟩
      · rw [List.length_nil] at hrc
        omega
      · rw [List.flatten_cons, List.cons_append]
        simp only [chunk_go]
        rw [← List.cons_append, List.take_left' hrc, List.drop_left' hrc]
        rw [ih fuel' hrest (by rw [hflen] at hf; omega)]

/-! ### Bounded deque lemmas -/

theorem dequeAppend_length_le (maxlen : Nat) (q : List β) (b : β) :
    (dequeAppend maxlen q b).length ≤ maxlen ∨
    (dequeAppend maxlen q b).length = q.length + 1 ∧ q.length + 1 ≤ maxlen := by
  by_cases h : (q ++ [b]).length ≤ maxlen
  · right
    have h' : q.length + 1 ≤ maxlen := by simpa using h
    constructor
    · simp [dequeAppend, h']
    · exact h'
  · left
    simp only [dequeAppend]
    rw [if_neg h]
    simp only [List.length_drop]
    omega

/-! ### The slice-assignment model of the callback body -/

theorem write_slice_append (acc rest vals : List α) (fw : Nat)
    (hacc : acc.length = fw) :
    write_slice (acc ++ rest) fw vals = acc ++ vals ++ rest.drop vals.length := by
  subst hacc
  have hd : acc.drop (acc.length + vals.length) = ([] : List α) :=
    List.drop_of_length_le (by omega)
  rw [write_slice, List.take_left, List.drop_append_eq_append_drop, hd,
    Nat.add_sub_cancel_left, List.nil_append]

theorem apply_writes_append (ws1 ws2 : List (Nat × List α)) :
    ∀ buf : List α, apply_writes buf (ws1 ++ ws2) =
      apply_writes (apply_writes buf ws1) ws2 := by
  induction ws1 with
  | nil => intro buf; simp [apply_writes]
  | cons w ws ih =>
    intro buf
    rcases w with ⟨off, vals⟩
    simp only [List.cons_append, apply_writes]
    exact ih _

theorem fill_writes_apply (frames : Nat) (q : List (List α)) :
    ∀ (fw : Nat) (pc : Option (List α)) (acc rest : List α), acc.length = fw →
    apply_writes (acc ++ rest) (fill_writes frames fw q pc) =
      acc ++ (fill_from_buffer frames fw q pc).1 ++
        rest.drop (fill_from_buffer frames fw q pc).1.length := by
  induction q with
  | nil =>
    intro fw pc acc rest _
    simp [fill_writes, fill_from_buffer, apply_writes]
  | cons chunk rest_q ih =>
    intro fw pc acc rest hacc
    by_cases hlt : fw < frames
    · rcases hrec : fill_from_buffer frames (fw + min chunk.length (frames - fw)) rest_q
          (if min chunk.length (frames - fw) < chunk.length
           then some (chunk.drop (min chunk.length (frames - fw))) else pc) with
        ⟨out, fw', q', pc'⟩
      have hunfold : fill_from_buffer frames fw (chunk :: rest_q) pc =
          (chunk.take (min chunk.length (frames - fw)) ++ out, fw', q', pc') := by
        simp only [fill_from_buffer, if_pos hlt, hrec]
      have htklen : (chunk.take (min chunk.length (frames - fw))).length =
          min chunk.length (frames - fw) := by simp
      simp only [fill_writes, if_pos hlt, apply_writes]
      rw [write_slice_append acc rest (chunk.take (min chunk.length (frames - fw)))
        fw hacc]
      have hres := ih (fw + min chunk.length (frames - fw))
        (if min chunk.length (frames - fw) < chunk.length
         then some (chunk.drop (min chunk.length (frames - fw))) else pc)
        (acc ++ chunk.take (min chunk.length (frames - fw)))
        (rest.drop (chunk.take (min chunk.length (frames - fw))).length)
        (by rw [List.length_append, hacc, htklen])
      rw [hrec] at hres
      simp only at hres
      rw [hres, hunfold]
      simp only [List.append_assoc, List.drop_drop, List.length_append, htklen]
    · have hnoop := fill_noop frames fw (chunk :: rest_q) pc (by omega)
      simp [fill_writes, hlt, apply_writes, hnoop]

theorem fill_writes_bound (frames : Nat) (q : List (List α)) :
    ∀ (fw : Nat) (pc : Option (List α)), fw ≤ frames →
    ∀ w ∈ fill_writes frames fw q pc, w.1 + w.2.length ≤ frames := by
  induction q with
  | nil =>
    intro fw pc _ w hw
    simp [fill_writes] at hw
  | cons chunk rest ih =>
    intro fw pc hfw w hw
    by_cases hlt : fw < frames
    · simp only [fill_writes, if_pos hlt] at hw
      rcases List.mem_cons.mp hw with hw | hw
      · subst hw
        simp only [List.length_take]
        omega
      · exact ih (fw + min chunk.length (frames - fw)) _ (by omega) w hw
    · simp [fill_writes, hlt] at hw

theorem callback_writes_bound (zero : α) (s : RecvState α) (frames : Nat) :
    ∀ w ∈ callback_writes zero s frames, w.1 + w.2.length ≤ frames := by
  intro w hw
  rcases h0 : take_carry frames s.carry_over with ⟨out0, fw0, pc0⟩
  rcases h1 : fill_from_buffer frames fw0 s.audio_buffer pc0 with ⟨out1, fw1, q1, pc1⟩
  have hfw0 : fw0 = min (s.carry_over.getD []).length frames := by
    have h := take_carry_fw frames s.carry_over
    rw [h0] at h
    exact h
  have t_len : out0.length = fw0 := by
    have h := take_carry_len frames s.carry_over
    rw [h0] at h
    exact h
  obtain ⟨f1, f2, _, _, _⟩ := fill_spec frames s.audio_buffer fw0 pc0 (by omega)
  rw [h1] at f1 f2
  simp only at f1 f2
  simp only [callback_writes, h0, h1] at hw
  rcases List.mem_cons.mp hw with hw | hw
  · subst hw
    simp only [t_len]
    omega
  · rcases List.mem_append.mp hw with hw | hw
    · exact fill_writes_bound frames s.audio_buffer fw0 pc0 (by omega) w hw
    · by_cases hlt : fw1 < frames
      · rw [if_pos hlt] at hw
        simp only [List.mem_singleton] at hw
        subst hw
        simp only [List.length_replicate]
        omega
      · rw [if_neg hlt] at hw
        simp at hw

theorem apply_writes_length (ws : List (Nat × List α)) :
    ∀ buf : List α, (∀ w ∈ ws, w.1 + w.2.length ≤ buf.length) →
    (apply_writes buf ws).length = buf.length := by
  induction ws with
  | nil => intro buf _; rfl
  | cons w ws ih =>
    intro buf hb
    rcases w with ⟨off, vals⟩
    have hoff : off + vals.length ≤ buf.length := by
      have h := hb (off, vals) (by simp)
      simpa using h
    have hws : (write_slice buf off vals).length = buf.length := by
      simp only [write_slice, List.length_append, List.length_take, List.length_drop]
      omega
    simp only [apply_writes]
    rw [ih (write_slice buf off vals)
      (fun w hw => by rw [hws]; exact hb w (List.mem_cons_of_mem _ hw)), hws]

/-- Applying all the slice assignments of a fault-free invocation produces
exactly the output buffer of the normal callback. -/
theorem callback_writes_apply (zero : α) (s : RecvState α) (frames : Nat)
    (init : List α) (hinit : init.length = frames) :
    apply_writes init (callback_writes zero s frames) =
      (audio_callback zero s frames).2 := by
  rcases h0 : take_carry frames s.carry_over with ⟨out0, fw0, pc0⟩
  rcases h1 : fill_from_buffer frames fw0 s.audio_buffer pc0 with ⟨out1, fw1, q1, pc1⟩
  have hcb : audio_callback zero s frames =
      (if fw1 < frames then
        ({ s with audio_buffer := q1, carry_over := pc1,
                  underruns := s.underruns + (if fw1 = 0 then 1 else 0) },
          out0 ++ out1 ++ List.replicate (frames - fw1) zero)
      else ({ s with audio_buffer := q1, carry_over := pc1 }, out0 ++ out1)) := by
    simp only [audio_callback, h0, h1]
  have hfw0 : fw0 = min (s.carry_over.getD []).length frames := by
    have h := take_carry_fw frames s.carry_over
    rw [h0] at h
    exact h
  have t_len : out0.length = fw0 := by
    have h := take_carry_len frames s.carry_over
    rw [h0] at h
    exact h
  obtain ⟨f1, f2, f3, f4, f5⟩ := fill_spec frames s.audio_buffer fw0 pc0 (by omega)
  rw [h1] at f1 f2 f3 f4 f5
  simp only at f1 f2 f3 f4 f5
  simp only [callback_writes, h0, h1]
  simp only [apply_writes]
  have hw0 : write_slice init 0 out0 = out0 ++ init.drop out0.length := by
    have h := write_slice_append [] init out0 0 rfl
    simpa using h
  rw [hw0, t_len, List.append_eq, apply_writes_append]
  have hfil := fill_writes_apply frames s.audio_buffer fw0 pc0 out0
    (init.drop fw0) t_len
  rw [h1] at hfil
  simp only at hfil
  rw [hfil, f4, List.drop_drop]
  have hfw01 : fw0 + (fw1 - fw0) = fw1 := by omega
  rw [hfw01]
  by_cases hlt : fw1 < frames
  · rw [if_pos hlt]
    simp only [apply_writes]
    have hA : (out0 ++ out1).length = fw1 := by
      rw [List.length_append, t_len, f4]
      omega
    rw [write_slice_append (out0 ++ out1) (init.drop fw1)
      (List.replicate (frames - fw1) zero) fw1 hA]
    rw [List.length_replicate, List.drop_drop]
    have h2 : fw1 + (frames - fw1) = frames := by omega
    rw [h2, List.drop_of_length_le (le_of_eq hinit), List.append_nil]
    rw [hcb, if_pos hlt]
  · rw [if_neg hlt]
    simp only [List.append_nil, apply_writes]
    have hfw1f : fw1 = frames := by omega
    rw [hfw1f, List.drop_of_length_le (le_of_eq hinit), List.append_nil]
    rw [hcb, if_neg hlt]

/-! ### Pop-trace lemmas -/

theorem fill_pop_trace_noop (frames fw : Nat) (q : List (List α))
    (pc : Option (List α)) (h : frames ≤ fw) :
    fill_pop_trace frames fw q pc = [] := by
  match q with
  | [] => simp [fill_pop_trace]
  | chunk :: rest =>
    have hnl : ¬ fw < frames := by omega
    simp [fill_pop_trace, hnl]

/-- Starting the drain loop with a clear carry-over slot, every pop happens
with the slot clear, and at most one pop (the last) leaves a remainder. -/
theorem fill_pop_trace_none (frames : Nat) (q : List (List α)) :
    ∀ fw : Nat,
    (∀ e ∈ fill_pop_trace frames fw q none, e.1 = none) ∧
    (fill_pop_trace frames fw q none).countP (fun e => e.2) ≤ 1 := by
  induction q with
  | nil => intro fw; simp [fill_pop_trace]
  | cons chunk rest ih =>
    intro fw
    by_cases hlt : fw < frames
    · by_cases hsplit : min chunk.length (frames - fw) < chunk.length
      · -- this pop leaves a remainder, so frames_written reaches frames and
        -- the loop performs no further pop
        have hn : fw + min chunk.length (frames - fw) = frames := by omega
        have hrest : fill_pop_trace frames (fw + min chunk.length (frames - fw)) rest
            (some (chunk.drop (min chunk.length (frames - fw)))) = [] :=
          fill_pop_trace_noop frames _ rest _ (by omega)
        simp only [fill_pop_trace, if_pos hlt, if_pos hsplit, hrest]
        constructor
        · intro e he
          simp only [List.mem_singleton] at he
          rw [he]
        · simp [List.countP_cons]
          split <;> omega
      · obtain ⟨ih1, ih2⟩ := ih (fw + min chunk.length (frames - fw))
        simp only [fill_pop_trace, if_pos hlt, if_neg hsplit]
        constructor
        · intro e he
          rcases List.mem_cons.mp he with he | he
          · rw [he]
          · exact ih1 e he
        · have hsplit' : ¬ (frames - fw < chunk.length) := by omega
          simpa [List.countP_cons, hsplit'] using ih2
    · simp [fill_pop_trace, hlt]

/-- At every pop performed by a callback invocation from a state satisfying
the carry-over invariant, the carry-over slot is clear, and at most one pop
leaves a remainder. -/
theorem callback_pop_trace_spec (s : RecvState α) (frames : Nat)
    (hinv : carry_inv s.carry_over) :
    (∀ e ∈ callback_pop_trace s frames, e.1 = none) ∧
    (callback_pop_trace s frames).countP (fun e => e.2) ≤ 1 := by
  by_cases hc : (take_carry frames s.carry_over).2.1 < frames
  · have hnone := take_carry_cleared frames s.carry_over hinv hc
    rw [callback_pop_trace, hnone]
    exact fill_pop_trace_none frames s.audio_buffer _
  · have htr : callback_pop_trace s frames = [] := by
      rw [callback_pop_trace]
      exact fill_pop_trace_noop frames _ s.audio_buffer _ (by omega)
    rw [htr]
    simp

/-! ### Claim theorems -/

/-- C1 (frame conservation): starting from a playback queue holding the
enqueued frame blocks (total frame count F) and no carry-over, a sequence of
callback invocations requesting f1, f2, ... frames with Σfi ≤ F produces, in
concatenation, exactly the first Σfi enqueued frames in the original order —
no frame duplicated or dropped (under this hypothesis no silence padding is
emitted, so there is nothing to ignore). -/
theorem frame_conservation (zero : α) (nc nb nbytes nchunks nu : Nat)
    (blocks : List (List α)) (fs : List Nat)
    (hF : fs.sum ≤ blocks.flatten.length) :
    ((run_callbacks zero ⟨nc, nb, blocks, none, nbytes, nchunks, nu⟩ fs).2).flatten =
      blocks.flatten.take fs.sum := by
  have hav : available (⟨nc, nb, blocks, none, nbytes, nchunks, nu⟩ : RecvState α) =
      blocks.flatten.length := by
    simp [available, content]
  have h := (run_spec zero fs ⟨nc, nb, blocks, none, nbytes, nchunks, nu⟩
    (by rw [hav]; exact hF)).1
  rw [h]
  simp [content]

/-- Witness for C1: two blocks of 2 and 1 frames, requests 2 then 1. -/
theorem frame_conservation_witness :
    ([2, 1] : List Nat).sum ≤ ([[1, 2], [3]] : List (List Nat)).flatten.length ∧
    ((run_callbacks 0 (⟨1, 10, [[1, 2], [3]], none, 0, 0, 0⟩ : RecvState Nat)
        [2, 1]).2).flatten =
      ([[1, 2], [3]] : List (List Nat)).flatten.take ([2, 1] : List Nat).sum :=
  ⟨by decide, frame_conservation 0 1 10 0 0 0 [[1, 2], [3]] [2, 1] (by decide)⟩

/-- C3 (under-run policy): an invocation with frames > 0, an empty queue and
no carry-over increments the under-run counter by exactly 1 and fills the
whole output with silence; an invocation with some but insufficient data
(0 < written < frames) leaves the counter unchanged, outputs all buffered
data first and zero-fills only the remainder [written, frames). -/
theorem underrun_policy (zero : α) (s : RecvState α) (frames : Nat) :
    (0 < frames → s.audio_buffer = [] → s.carry_over = none →
      audio_callback zero s frames =
        ({ s with underruns := s.underruns + 1 }, List.replicate frames zero)) ∧
    (0 < available s → available s < frames →
      (audio_callback zero s frames).1.underruns = s.underruns ∧
      (audio_callback zero s frames).2 =
        content s ++ List.replicate (frames - available s) zero) := by
  constructor
  · intro hf hq hpc
    rcases s with ⟨c, b, q, pc, br, cr, u⟩
    simp only at hq hpc
    subst hq
    subst hpc
    simp [audio_callback, take_carry_none_eq, fill_from_buffer, hf]
  · intro h0 h1
    obtain ⟨c1, c2, c3, _, _, _, _⟩ := audio_callback_spec zero s frames
    have hclen : (content s).length = available s := rfl
    constructor
    · rw [c3]
      have hcond : ¬ (available s = 0 ∧ 0 < frames) := by omega
      simp [hcond]
    · have htk : (content s).take frames = content s :=
        List.take_of_length_le (by omega)
      have hm : min frames (available s) = available s := by omega
      rw [c1, htk, hm]

/-- Witness for C3: an empty receiver requesting 4 frames (pure under-run),
and a receiver holding 3 frames requesting 5 (partial fill). -/
theorem underrun_policy_witness :
    ((0 : Nat) < 4 ∧
      audio_callback (0 : Nat) ⟨1, 10, [], none, 0, 0, 7⟩ 4 =
        ({ (⟨1, 10, [], none, 0, 0, 7⟩ : RecvState Nat) with underruns := 7 + 1 },
          List.replicate 4 0)) ∧
    (0 < available (⟨1, 10, [[5], [6, 7]], none, 0, 0, 7⟩ : RecvState Nat) ∧
      available (⟨1, 10, [[5], [6, 7]], none, 0, 0, 7⟩ : RecvState Nat) < 5 ∧
      (audio_callback (0 : Nat) ⟨1, 10, [[5], [6, 7]], none, 0, 0, 7⟩ 5).1.underruns = 7 ∧
      (audio_callback (0 : Nat) ⟨1, 10, [[5], [6, 7]], none, 0, 0, 7⟩ 5).2 =
        content (⟨1, 10, [[5], [6, 7]], none, 0, 0, 7⟩ : RecvState Nat) ++
          List.replicate (5 - available (⟨1, 10, [[5], [6, 7]], none, 0, 0, 7⟩ : RecvState Nat)) 0) := by
  refine ⟨⟨by decide, ?_⟩, ⟨by decide, by decide, ?_⟩⟩
  · exact (underrun_policy 0 ⟨1, 10, [], none, 0, 0, 7⟩ 4).1 (by decide) rfl rfl
  · exact (underrun_policy 0 ⟨1, 10, [[5], [6, 7]], none, 0, 0, 7⟩ 5).2
      (by decide) (by decide)

/-- C9 (counters precede decode): for every received datagram the chunk
counter increases by exactly 1 and the byte counter by the payload length,
even when the decode subsequently fails and no block is appended — so
chunks_received may exceed the number of blocks ever enqueued. -/
theorem counters_precede_decode (s : RecvState (List Nat)) (data : List Nat) :
    (receive_audio_step s data).chunks_received = s.chunks_received + 1 ∧
    (receive_audio_step s data).bytes_received = s.bytes_received + data.length ∧
    (decode_datagram s.channels data = none →
      (receive_audio_step s data).audio_buffer = s.audio_buffer) := by
  rcases h : decode_datagram s.channels data with _ | block
  · refine ⟨?_, ?_, ?_⟩ <;> simp [receive_audio_step, h]
  · refine ⟨?_, ?_, ?_⟩ <;> simp [receive_audio_step, h]

/-- Witness for C9: a 3-byte datagram fails to decode, the counters still
advance and the queue is untouched. -/
theorem counters_precede_decode_witness :
    decode_datagram 1 [9, 9, 9] = none ∧
    (receive_audio_step ⟨1, 10, [], none, 3, 4, 0⟩ [9, 9, 9]).chunks_received = 4 + 1 ∧
    (receive_audio_step ⟨1, 10, [], none, 3, 4, 0⟩ [9, 9, 9]).bytes_received = 3 + 3 ∧
    (receive_audio_step ⟨1, 10, [], none, 3, 4, 0⟩ [9, 9, 9]).audio_buffer = [] := by
  obtain ⟨h1, h2, h3⟩ :=
    counters_precede_decode (⟨1, 10, [], none, 3, 4, 0⟩ : RecvState (List Nat)) [9, 9, 9]
  exact ⟨by decide, h1, by simpa using h2, h3 (by decide)⟩

/-- With 0 frames requested, the carry-over consumption step copies nothing
and leaves the slot's contents unchanged (`partial_chunk[0:]` in the source is
a copy with identical samples). -/
theorem take_carry_zero (pc : Option (List α)) : take_carry 0 pc = ([], 0, pc) := by
  rcases pc with _ | p
  · rfl
  · by_cases hp : 0 < p.length
    · have h0 : min p.length 0 = 0 := by omega
      simp [take_carry, hp, h0]
    · simp [take_carry, hp]

/-- C10 (zero-frame invocation is a no-op): a callback invocation requesting
0 frames writes no output, leaves the queue, the carry-over and the under-run
counter unchanged. -/
theorem zero_frames_noop (zero : α) (s : RecvState α) :
    audio_callback zero s 0 = (s, []) := by
  have h0 := take_carry_zero (α := α) s.carry_over
  have h1 : fill_from_buffer 0 0 s.audio_buffer s.carry_over =
      ([], 0, s.audio_buffer, s.carry_over) :=
    fill_noop 0 0 _ _ (le_refl 0)
  simp only [audio_callback, h0, h1]
  rfl

/-- C2 counterexample: a 5-byte datagram with channels = 1 is malformed
(5 is not a multiple of 1 × 4).  The claim says the ingest loop truncates it
to the largest valid 4-byte (one-frame) valid prefix and appends that block;
the code instead lets `np.frombuffer` raise, catches the exception, and drops
the datagram entirely — the queue stays empty. -/
theorem malformed_truncation_counterexample :
    ([0, 0, 0, 0, 0] : List Nat).length % (1 * 4) ≠ 0 ∧
    decode_datagram 1 [0, 0, 0, 0, 0] = none ∧
    (receive_audio_step ⟨1, 10, [], none, 0, 0, 0⟩ [0, 0, 0, 0, 0]).audio_buffer = [] := by
  decide

/-- C2 (amended): for every received datagram whose payload byte length is not
an exact multiple of channel_count × 4, the decode raises an error that the
ingest loop catches: the datagram is dropped entirely — no block (truncated or
otherwise) is appended, the queue is unchanged — while the byte/chunk counters
are still incremented and no fatal error escapes (the step is total and the
loop continues). -/
theorem malformed_datagram_dropped (s : RecvState (List Nat)) (data : List Nat)
    (h : data.length % (s.channels * 4) ≠ 0) :
    receive_audio_step s data =
      { s with bytes_received := s.bytes_received + data.length,
               chunks_received := s.chunks_received + 1 } := by
  have hdec : decode_datagram s.channels data = none :=
    decode_datagram_malformed s.channels data h
  simp [receive_audio_step, hdec]

/-- Witness for the amended C2: a 6-byte datagram with channels = 1. -/
theorem malformed_datagram_dropped_witness :
    ([1, 2, 3, 4, 5, 6] : List Nat).length %
      ((⟨1, 10, [], none, 20, 2, 0⟩ : RecvState (List Nat)).channels * 4) ≠ 0 ∧
    receive_audio_step (⟨1, 10, [], none, 20, 2, 0⟩ : RecvState (List Nat))
        [1, 2, 3, 4, 5, 6] =
      { (⟨1, 10, [], none, 20, 2, 0⟩ : RecvState (List Nat)) with
          bytes_received := 20 + ([1, 2, 3, 4, 5, 6] : List Nat).length,
          chunks_received := 2 + 1 } :=
  ⟨by decide, malformed_datagram_dropped ⟨1, 10, [], none, 20, 2, 0⟩
    [1, 2, 3, 4, 5, 6] (by decide)⟩

/-- C5 counterexample: with buffer_size = 0 (a legal configuration —
`deque(maxlen=0)`) a successfully decoded block is itself discarded by the
append: the most recently appended block is the one evicted to make room for
itself, and the queue stays empty. -/
theorem bounded_queue_counterexample :
    decode_datagram 1 [7, 0, 0, 0] = some [[7]] ∧
    (receive_audio_step ⟨1, 0, [], none, 0, 0, 0⟩ [7, 0, 0, 0]).audio_buffer = [] ∧
    dequeAppend 0 ([] : List Nat) 7 = [] := by
  decide

/-- C5 (amended): for buffer_size ≥ 1 the queue length never exceeds
buffer_size after any append (and hence after every sequence of appends
starting within capacity), each append keeps exactly the newest blocks —
dropping only the oldest overflow — and the block just appended is always the
last element, never the one evicted.  (For buffer_size = 0 the appended block
itself is discarded, which is what the counterexample shows.) -/
theorem bounded_queue_eviction (maxlen : Nat) (q : List β) (b : β)
    (bs : List β) (hm : 1 ≤ maxlen) :
    (dequeAppend maxlen q b).length ≤ maxlen ∧
    dequeAppend maxlen q b = q.drop (q.length + 1 - maxlen) ++ [b] ∧
    (q.length ≤ maxlen → (bs.foldl (dequeAppend maxlen) q).length ≤ maxlen) := by
  have hlen : ∀ (q' : List β) (b' : β), (dequeAppend maxlen q' b').length ≤ maxlen := by
    intro q' b'
    rcases dequeAppend_length_le maxlen q' b' with h | ⟨_, h2⟩
    · exact h
    · omega
  refine ⟨hlen q b, ?_, ?_⟩
  · by_cases h : (q ++ [b]).length ≤ maxlen
    · have h' : q.length + 1 - maxlen = 0 := by
        have := h
        simp only [List.length_append, List.length_cons, List.length_nil] at this
        omega
      simp [dequeAppend, h, h']
    · have hk : q.length + 1 - maxlen ≤ q.length := by omega
      simp only [dequeAppend]
      rw [if_neg h]
      rw [List.drop_append_of_le_length (by simpa using hk)]
      congr 1
      simp only [List.length_append, List.length_cons, List.length_nil]
  · intro hq
    induction bs generalizing q with
    | nil => exact hq
    | cons b' bs ih =>
      simp only [List.foldl_cons]
      exact ih (dequeAppend maxlen q b') (hlen q b')

/-- Witness for the amended C5: a full queue of capacity 2 receiving a third
block evicts only the oldest. -/
theorem bounded_queue_eviction_witness :
    1 ≤ 2 ∧
    (dequeAppend 2 [10, 20] 30).length ≤ 2 ∧
    dequeAppend 2 [10, 20] 30 = [10, 20].drop ([10, 20].length + 1 - 2) ++ [30] ∧
    ([40, 50, 60].foldl (dequeAppend 2) [10, 20]).length ≤ 2 := by
  obtain ⟨h1, h2, h3⟩ := bounded_queue_eviction 2 [10, 20] 30 [40, 50, 60] (by decide)
  exact ⟨by decide, h1, h2, h3 (by decide)⟩

/-- C6 (round-trip decode): a frame block of frame_count × channel_count
32-bit samples (each an arbitrary 32-bit pattern) serialized by the sender
(`astype(np.float32).tobytes()`, interleaved row-major) and decoded by the
receiver (`frombuffer` as float32, `reshape(-1, channels)`) yields bit-identical
sample values in identical order, for payloads of at most 65507 bytes. -/
theorem sender_receiver_roundtrip (channels : Nat) (block : List (List Nat))
    (hch : 0 < channels)
    (hrow : ∀ r ∈ block, r.length = channels)
    (hword : ∀ r ∈ block, ∀ w ∈ r, w < 4294967296)
    (hsize : (sender_encode block).length ≤ 65507) :
    decode_datagram channels (sender_encode block) = some block := by
  have hw : ∀ w ∈ block.flatten, w < 4294967296 := by
    intro w hwmem
    obtain ⟨r, hr, hwr⟩ := List.mem_flatten.mp hwmem
    exact hword r hr w hwr
  have hwords : bytes_to_words (sender_encode block) = block.flatten := by
    have h := bytes_to_words_flatMap block.flatten hw
    simpa [sender_encode] using h
  have hlen4 : (sender_encode block).length = 4 * block.flatten.length := by
    have h := flatMap_word_to_bytes_length block.flatten
    simpa [sender_encode] using h
  have hmod4 : (sender_encode block).length % 4 = 0 := by
    rw [hlen4]
    omega
  have hflatlen : block.flatten.length = channels * block.length :=
    flatten_length_uniform channels block hrow
  have hmodch : block.flatten.length % channels = 0 := by
    rw [hflatlen]
    exact Nat.mul_mod_right channels block.length
  simp only [decode_datagram, frombuffer_float32, if_pos hmod4, hwords, reshape_rows]
  rw [if_pos ⟨hch, hmodch⟩, chunk_rows,
    chunk_go_flatten channels hch block block.flatten.length hrow (le_refl _)]

/-- Witness for C6: two stereo frames, one sample with the maximal 32-bit
pattern. -/
theorem sender_receiver_roundtrip_witness :
    (0 : Nat) < 2 ∧
    (∀ r ∈ ([[1, 2], [4294967295, 0]] : List (List Nat)), r.length = 2) ∧
    (∀ r ∈ ([[1, 2], [4294967295, 0]] : List (List Nat)), ∀ w ∈ r, w < 4294967296) ∧
    (sender_encode [[1, 2], [4294967295, 0]]).length ≤ 65507 ∧
    decode_datagram 2 (sender_encode [[1, 2], [4294967295, 0]]) =
      some [[1, 2], [4294967295, 0]] :=
  ⟨by decide, by decide, by decide, by decide,
    sender_receiver_roundtrip 2 [[1, 2], [4294967295, 0]] (by decide) (by decide)
      (by decide) (by decide)⟩

/-- C4 (split correctness): a single enqueued block of s frames with
s % f ≠ 0, served by consecutive invocations all requesting f frames with no
other data arriving, is emitted across exactly ⌈s/f⌉ = s/f + 1 invocations:
after s/f + 1 invocations the concatenated output is the whole block (in
order, padded with silence only at the very end), while after only s/f
invocations just the first (s/f)·f < s frames have been emitted. -/
theorem split_correctness (zero : α) (nc nb nbytes nchunks nu : Nat)
    (blk : List α) (f : Nat) (hf : 0 < f) (hnd : blk.length % f ≠ 0) :
    ((run_callbacks zero ⟨nc, nb, [blk], none, nbytes, nchunks, nu⟩
        (List.replicate (blk.length / f + 1) f)).2).flatten =
      blk ++ List.replicate ((blk.length / f + 1) * f - blk.length) zero ∧
    ((run_callbacks zero ⟨nc, nb, [blk], none, nbytes, nchunks, nu⟩
        (List.replicate (blk.length / f) f)).2).flatten =
      blk.take (blk.length / f * f) ∧
    blk.length / f * f < blk.length := by
  have hmodpos : 0 < blk.length % f := Nat.pos_of_ne_zero hnd
  have hdm := Nat.div_add_mod blk.length f
  have hcomm : blk.length / f * f = f * (blk.length / f) := Nat.mul_comm _ _
  have hmodlt : blk.length % f < f := Nat.mod_lt _ hf
  have hsumq : (List.replicate (blk.length / f) f).sum = blk.length / f * f :=
    sum_replicate_nat _ _
  have hcs0 : content (⟨nc, nb, [blk], none, nbytes, nchunks, nu⟩ : RecvState α) =
      blk := by
    simp [content]
  have havs0 : available (⟨nc, nb, [blk], none, nbytes, nchunks, nu⟩ : RecvState α) =
      blk.length := by
    simp [available, content]
  have hqle : blk.length / f * f ≤ blk.length := Nat.div_mul_le_self _ _
  obtain ⟨r1, r2, r3⟩ := run_spec zero (List.replicate (blk.length / f) f)
    ⟨nc, nb, [blk], none, nbytes, nchunks, nu⟩ (by rw [hsumq, havs0]; exact hqle)
  rw [hsumq] at r1 r2
  rw [hcs0] at r1 r2
  set s1 := (run_callbacks zero
    (⟨nc, nb, [blk], none, nbytes, nchunks, nu⟩ : RecvState α)
    (List.replicate (blk.length / f) f)).1 with hs1
  have h3 : blk.length / f * f < blk.length := by omega
  refine ⟨?_, r1, h3⟩
  have hrepl : List.replicate (blk.length / f + 1) f =
      List.replicate (blk.length / f) f ++ [f] := List.replicate_succ' ..
  rw [hrepl, run_callbacks_snoc, ← hs1]
  simp only [List.flatten_append, List.flatten_cons, List.flatten_nil,
    List.append_nil]
  rw [r1]
  obtain ⟨c1, _, _, _, _, _, _⟩ := audio_callback_spec zero s1 f
  have hA1 : available s1 = blk.length - blk.length / f * f := by
    simp only [available]
    rw [r2, List.length_drop]
  have hlen1 : (content s1).length = available s1 := rfl
  have hA1lt : available s1 < f := by omega
  have htk1 : (content s1).take f = content s1 :=
    List.take_of_length_le (by omega)
  have hm1 : min f (available s1) = available s1 := by omega
  rw [c1, htk1, hm1, r2, hA1]
  have hexp : f - (blk.length - blk.length / f * f) =
      (blk.length / f + 1) * f - blk.length := by
    have hmul : (blk.length / f + 1) * f = blk.length / f * f + f := by ring
    omega
  rw [hexp, ← List.append_assoc, List.take_append_drop]

/-- Witness for C4: a block of 5 frames served in requests of 2 frames —
exactly 3 invocations emit it. -/
theorem split_correctness_witness :
    (0 : Nat) < 2 ∧ ([1, 2, 3, 4, 5] : List Nat).length % 2 ≠ 0 ∧
    ((run_callbacks 0 (⟨1, 10, [[1, 2, 3, 4, 5]], none, 0, 0, 0⟩ : RecvState Nat)
        (List.replicate (([1, 2, 3, 4, 5] : List Nat).length / 2 + 1) 2)).2).flatten =
      [1, 2, 3, 4, 5] ++ List.replicate ((([1, 2, 3, 4, 5] : List Nat).length / 2 + 1) * 2 -
        ([1, 2, 3, 4, 5] : List Nat).length) 0 ∧
    ((run_callbacks 0 (⟨1, 10, [[1, 2, 3, 4, 5]], none, 0, 0, 0⟩ : RecvState Nat)
        (List.replicate (([1, 2, 3, 4, 5] : List Nat).length / 2) 2)).2).flatten =
      ([1, 2, 3, 4, 5] : List Nat).take (([1, 2, 3, 4, 5] : List Nat).length / 2 * 2) ∧
    ([1, 2, 3, 4, 5] : List Nat).length / 2 * 2 < ([1, 2, 3, 4, 5] : List Nat).length := by
  obtain ⟨h1, h2, h3⟩ :=
    split_correctness 0 1 10 0 0 0 [1, 2, 3, 4, 5] 2 (by decide) (by decide)
  exact ⟨by decide, by decide, h1, h2, h3⟩

/-- C7 (callback fault containment): if an exception is raised at any point
while the callback body is writing the output (the carry-over copy, any
queue-pop copy, or the silence fill — modelled as a fault at any slice
assignment of the body), the handler zeroes the entire output buffer and the
invocation returns normally (the model is a total function; nothing
propagates).  With no fault the modelled buffer coincides with the normal
callback output, so the fault model is about the real body. -/
theorem callback_fault_containment (zero : α) (s : RecvState α) (frames : Nat)
    (init : List α) (hinit : init.length = frames) :
    (∀ k : Nat, (audio_callback_faulting zero s frames init (some k)).2 = true →
      (audio_callback_faulting zero s frames init (some k)).1 =
        List.replicate frames zero) ∧
    audio_callback_faulting zero s frames init none =
      ((audio_callback zero s frames).2, false) := by
  constructor
  · intro k hk
    by_cases hlt : k < (callback_writes zero s frames).length
    · have hb : ∀ w ∈ (callback_writes zero s frames).take k,
          w.1 + w.2.length ≤ init.length := by
        intro w hw
        rw [hinit]
        exact callback_writes_bound zero s frames w (List.mem_of_mem_take hw)
      have hl : (apply_writes init ((callback_writes zero s frames).take k)).length =
          frames := by
        rw [apply_writes_length _ init hb, hinit]
      simp only [audio_callback_faulting, if_pos hlt]
      rw [hl]
    · simp only [audio_callback_faulting, if_neg hlt] at hk
      simp at hk
  · simp only [audio_callback_faulting]
    rw [callback_writes_apply zero s frames init hinit]

/-- Witness for C7: a fault at the very first slice assignment of an
invocation requesting 2 frames from a queue holding one 3-frame block; the
device receives pure silence, never the stale buffer contents [9, 9]. -/
theorem callback_fault_containment_witness :
    ([9, 9] : List Nat).length = 2 ∧
    (audio_callback_faulting 0
      (⟨1, 10, [[1, 2, 3]], none, 0, 0, 0⟩ : RecvState Nat) 2 [9, 9] (some 0)).2 = true ∧
    (audio_callback_faulting 0
      (⟨1, 10, [[1, 2, 3]], none, 0, 0, 0⟩ : RecvState Nat) 2 [9, 9] (some 0)).1 =
        List.replicate 2 0 ∧
    audio_callback_faulting 0
      (⟨1, 10, [[1, 2, 3]], none, 0, 0, 0⟩ : RecvState Nat) 2 [9, 9] none =
        ((audio_callback 0 (⟨1, 10, [[1, 2, 3]], none, 0, 0, 0⟩ : RecvState Nat) 2).2,
          false) := by
  obtain ⟨h1, h2⟩ := callback_fault_containment 0
    (⟨1, 10, [[1, 2, 3]], none, 0, 0, 0⟩ : RecvState Nat) 2 [9, 9] (by decide)
  exact ⟨by decide, by decide, h1 0 (by decide), h2⟩

/-- C8 (carry-over discipline): from any state satisfying the carry-over
invariant (slot clear, or holding a nonempty block — the only states the code
ever constructs, and the state type itself allows at most one such block,
owned by the callback alone), every queue pop performed by a callback
invocation happens with the carry-over slot clear, at most one pop per
invocation leaves a remainder in the slot, and the invariant is preserved
across the invocation. -/
theorem carry_over_discipline (zero : α) (s : RecvState α) (frames : Nat)
    (hinv : carry_inv s.carry_over) :
    (∀ e ∈ callback_pop_trace s frames, e.1 = none) ∧
    (callback_pop_trace s frames).countP (fun e => e.2) ≤ 1 ∧
    carry_inv (audio_callback zero s frames).1.carry_over := by
  obtain ⟨h1, h2⟩ := callback_pop_trace_spec s frames hinv
  exact ⟨h1, h2, audio_callback_inv zero s frames hinv⟩

/-- Witness for C8: a nonempty carry-over of 1 frame, a queue [3-frame block,
1-frame block], request of 3 frames — the one pop happens with the slot
already cleared and leaves a remainder. -/
theorem carry_over_discipline_witness :
    carry_inv ((⟨1, 10, [[1, 2, 3], [4]], some [9], 0, 0, 0⟩ :
      RecvState Nat)).carry_over ∧
    (∀ e ∈ callback_pop_trace
      (⟨1, 10, [[1, 2, 3], [4]], some [9], 0, 0, 0⟩ : RecvState Nat) 3, e.1 = none) ∧
    (callback_pop_trace
      (⟨1, 10, [[1, 2, 3], [4]], some [9], 0, 0, 0⟩ : RecvState Nat) 3).countP
        (fun e => e.2) ≤ 1 ∧
    carry_inv (audio_callback 0
      (⟨1, 10, [[1, 2, 3], [4]], some [9], 0, 0, 0⟩ : RecvState Nat) 3).1.carry_over := by
  obtain ⟨h1, h2, h3⟩ := carry_over_discipline 0
    (⟨1, 10, [[1, 2, 3], [4]], some [9], 0, 0, 0⟩ : RecvState Nat) 3
    (Or.inr ⟨[9], rfl, by decide⟩)
  exact ⟨Or.inr ⟨[9], rfl, by decide⟩, h1, h2, h3⟩

end CarrySound
